import Mathlib

/-
Verification development for the pyDSLR camera session and capture-coordination
engine (src/pydslr/tools/camera.py, src/pydslr/config/r6m2.py, and the earlier
revision src/app/tools/camera.py).

The Python code is shallowly embedded as follows:
  * the gphoto2 widget tree is a list of sections, each holding an association
    list of leaf widgets (name, value); values in this schema are strings;
  * a pydantic TypedConfig is a record of explicitly-set field names
    (model_fields_set) together with a getter returning the optional value of
    each attribute (None becomes Option.none);
  * raising a Python exception is returning Except.error;
  * hardware effects (widget writes, device file deletion, local unlink) are
    recorded explicitly in the returned traces.
-/

set_option maxHeartbeats 1000000

namespace PyDSLR

/-- Python exceptions that the embedded code can raise. -/
inductive PyError where
  | attributeError
  | assertionError
  | gpError
  | zeroByte
  | noCaptureEvent
  deriving DecidableEq, Repr

/-- A (folder, name) reference to a file on the device, produced by a
GP_EVENT_FILE_ADDED event. -/
structure FileRef where
  folder : String
  name : String
  deriving DecidableEq, Repr

/-! ### The gphoto2 configuration tree -/

/-- One section of the camera configuration tree: a section widget with its
leaf children, each leaf a (name, value) pair. -/
structure GPSection where
  name : String
  leaves : List (String × String)
  deriving DecidableEq, Repr

/-- The camera configuration tree: the children of the root window widget. -/
abbrev GPTree := List GPSection

/-- First-match association-list lookup (dict/getattr access by key). -/
def alookup {β : Type} : List (String × β) → String → Option β
  | [], _ => none
  | (k, v) :: rest, key => if k = key then some v else alookup rest key

/-- gp_widget_get_child_by_name: find a leaf widget anywhere in the tree,
first match wins. -/
def treeLookup : GPTree → String → Option String
  | [], _ => none
  | s :: rest, f =>
      match alookup s.leaves f with
      | some v => some v
      | none => treeLookup rest f

/-- Replace the value of the first leaf named f in a leaf list; none when the
leaf does not exist. -/
def setLeaf : List (String × String) → String → String → Option (List (String × String))
  | [], _, _ => none
  | (k, w) :: rest, f, v =>
      if k = f then some ((k, v) :: rest)
      else (setLeaf rest f v).map (fun l => (k, w) :: l)

/-- gp_widget_set_value after gp_widget_get_child_by_name: update the first
leaf named f anywhere in the tree; none (a GP error) when no such widget. -/
def treeWrite : GPTree → String → String → Option GPTree
  | [], _, _ => none
  | s :: rest, f, v =>
      match setLeaf s.leaves f v with
      | some ls => some ({ s with leaves := ls } :: rest)
      | none => (treeWrite rest f v).map (fun t => s :: t)

/-- Find the first section with the given name. -/
def findSection : GPTree → String → Option GPSection
  | [], _ => none
  | s :: rest, n => if s.name = n then some s else findSection rest n

/-- The value of leaf f2 inside the (first) section named s, as the decoded
nested dictionary sees it. -/
def localValue (t : GPTree) (s f2 : String) : Option String :=
  (findSection t s).bind fun sec => alookup sec.leaves f2

/-- The shape of a tree: section names with their leaf names, forgetting
values.  Widget writes only replace values, so they preserve the shape. -/
def treeShape (t : GPTree) : List (String × List String) :=
  t.map fun s => (s.name, s.leaves.map Prod.fst)

/-- All leaf names of the tree, in order. -/
def treeNames (t : GPTree) : List String :=
  (t.map fun s => s.leaves.map Prod.fst).flatten

/-- Well-formedness of a device tree: section names are distinct and leaf
names are globally distinct (the gphoto2 by-name lookup presumes this). -/
def TreeWF (t : GPTree) : Prop :=
  (t.map GPSection.name).Nodup ∧ (treeNames t).Nodup

instance (t : GPTree) : Decidable (TreeWF t) := by
  unfold TreeWF; infer_instance

/-! ### Typed configurations (pydantic models) -/

/-- A sub-configuration object (one section record of the pydantic model).
fieldsSet is model_fields_set; get is attribute access, with Python None
embedded as Option.none. -/
structure SubConfig where
  fieldsSet : List String
  get : String → Option String

/-- A typed configuration (the full pydantic model): explicitly-set section
names plus attribute access returning the optional sub-configuration. -/
structure TypedConfig where
  fieldsSet : List String
  get : String → Option SubConfig

/-- The statically generated device schema: for every section name, the field
names the generated config class declares for it. -/
structure Schema where
  sections : List (String × List String)

/-- A typed config is well-typed for a schema when every explicitly-set field
of every set sub-config is declared in that section of the schema.  This is
automatic in Python, where model_fields_set only contains class fields. -/
def WellTypedCfg (sc : Schema) (c : TypedConfig) : Prop :=
  ∀ f ∈ c.fieldsSet, ∀ sub, c.get f = some sub →
    ∀ f2 ∈ sub.fieldsSet, ∃ fl, alookup sc.sections f = some fl ∧ f2 ∈ fl

/-- Schema/tree alignment: every schema field that exists anywhere in the
tree sits inside the section the schema declares it in.  This holds by
construction for the generated per-device config classes. -/
def Aligned (sc : Schema) (t : GPTree) : Prop :=
  ∀ p ∈ sc.sections, ∀ f2 ∈ p.2,
    (treeLookup t f2).isSome → localValue t p.1 f2 = treeLookup t f2

instance (sc : Schema) (t : GPTree) : Decidable (Aligned sc t) := by
  unfold Aligned; infer_instance

/-- Decode one tree section into its pydantic sub-config: kwargs are the
leaves present in the section, restricted to the fields the class declares;
declared fields missing from the section read back as None. -/
def decodeSub (fields : List String) (leaves : List (String × String)) : SubConfig where
  fieldsSet := fields.filter fun f2 => (alookup leaves f2).isSome
  get := fun f2 => if f2 ∈ fields then alookup leaves f2 else none

/-- Camera.get_config: decode the cached tree into the typed config.  Tree
sections unknown to the schema are ignored; schema sections missing from the
tree read back as None and are not explicitly set. -/
def decode (sc : Schema) (t : GPTree) : TypedConfig where
  fieldsSet := (sc.sections.map Prod.fst).filter fun s => (findSection t s).isSome
  get := fun s =>
    match alookup sc.sections s, findSection t s with
    | some fields, some sec => some (decodeSub fields sec.leaves)
    | _, _ => none

/-! ### Camera.set_config (src/pydslr/tools/camera.py lines 538-579) -/

/-- The only_fields skip test: continue (skip) when only_fields is given and
the field is not a member. -/
def skipOnly : Option (List String) → String → Bool
  | none, _ => false
  | some l, f2 => if f2 ∈ l then false else true

/-- Python set.add on the insertion-ordered list model of updated_settings. -/
def addName (l : List String) (f : String) : List String :=
  if f ∈ l then l else l ++ [f]

/-- Apply a log of staged widget writes to a tree in order (failed writes
cannot occur on the paths where this is used). -/
def applyLog (t : GPTree) : List (String × String) → GPTree
  | [] => t
  | (f, v) :: ws => applyLog ((treeWrite t f v).getD t) ws

/-- The value of the last write of a given field in a write log. -/
def logLast : List (String × String) → String → Option String
  | [], _ => none
  | w :: ws, g =>
      match logLast ws g with
      | some v => some v
      | none => if w.1 = g then some w.2 else none

/-- Inner loop of set_config over the explicitly-set fields of one set
sub-config: accumulates updated_settings, the sequence of gp widget writes,
and the in-memory tree.  Raises attributeError when the baseline sub-config
is None (getattr(None, field2)), and a GP error when the widget is missing. -/
def stageFields (oldC : TypedConfig) (f : String) (sub : SubConfig)
    (onlyF : Option (List String)) :
    List String → List String → List (String × String) → GPTree →
    Except PyError (List String × List (String × String) × GPTree)
  | [], upd, log, t => .ok (upd, log, t)
  | f2 :: rest, upd, log, t =>
      if skipOnly onlyF f2 then stageFields oldC f sub onlyF rest upd log t
      else
        match oldC.get f with
        | none => .error .attributeError
        | some oldSub =>
            match sub.get f2 with
            | none => stageFields oldC f sub onlyF rest upd log t
            | some v =>
                if oldSub.get f2 = some v then
                  stageFields oldC f sub onlyF rest upd log t
                else
                  match treeWrite t f2 v with
                  | none => .error .gpError
                  | some t2 =>
                      stageFields oldC f sub onlyF rest
                        (addName upd f2) (log ++ [(f2, v)]) t2

/-- Outer loop of set_config over the explicitly-set sub-configs of the new
config; sub-configs set to None are skipped. -/
def stageAll (oldC newC : TypedConfig) (onlyF : Option (List String)) :
    List String → List String → List (String × String) → GPTree →
    Except PyError (List String × List (String × String) × GPTree)
  | [], upd, log, t => .ok (upd, log, t)
  | f :: rest, upd, log, t =>
      match newC.get f with
      | none => stageAll oldC newC onlyF rest upd log t
      | some sub =>
          match stageFields oldC f sub onlyF sub.fieldsSet upd log t with
          | .error e => .error e
          | .ok (upd2, log2, t2) => stageAll oldC newC onlyF rest upd2 log2 t2

/-- Result of a successful set_config call. -/
structure SetConfigOut where
  updated : List String
  log : List (String × String)
  tree : GPTree
  committed : Bool
  deriving Repr

/-- Camera.set_config with an explicit baseline old config (the source reads
the baseline with get_config from the cached tree; config_context reuses this
entry point with a previously captured baseline as the new config).  The
hardware commit gp_camera_set_config runs only when updated_settings is
non-empty. -/
def set_config_core (oldC newC : TypedConfig) (onlyF : Option (List String))
    (t : GPTree) : Except PyError SetConfigOut :=
  match stageAll oldC newC onlyF newC.fieldsSet [] [] t with
  | .error e => .error e
  | .ok (upd, log, t2) => .ok ⟨upd, log, t2, !upd.isEmpty⟩

/-- Camera.set_config as called externally: the baseline is the decode of
the cached tree. -/
def camera_set_config (sc : Schema) (t : GPTree) (newC : TypedConfig)
    (onlyF : Option (List String)) : Except PyError SetConfigOut :=
  set_config_core (decode sc t) newC onlyF t

/-! ### Camera.config_context (src/pydslr/tools/camera.py lines 526-536)

The source is a contextmanager whose body is
  old_config = self.get_config()
  changed_fields = self.set_config(new_config)
  yield
  self.set_config(old_config, only_fields=changed_fields)
with no try/finally: when the enclosed operation raises, the generator is
closed at the yield and the restoring set_config line never runs. -/

/-- config_context: returns the outcome together with the final tree.  The
enclosed operation is an arbitrary state transformer on the tree. -/
def config_context (sc : Schema) (t0 : GPTree) (newC : TypedConfig)
    (body : GPTree → Except PyError GPTree) : Except PyError GPTree × GPTree :=
  match camera_set_config sc t0 newC none with
  | .error e => (.error e, t0)
  | .ok out1 =>
      match body out1.tree with
      | .error e => (.error e, out1.tree)
      | .ok t2 =>
          match set_config_core (decode sc t2) (decode sc t0)
              (some out1.updated) t2 with
          | .error e => (.error e, t2)
          | .ok out2 => (.ok out2.tree, out2.tree)

/-! ### R6M2Config.is_sdcard_capture_enabled (src/pydslr/config/r6m2.py 612-613)

The source is
  return "card" in self.settings.capturetarget.lower()
which dereferences self.settings and .capturetarget without a None check. -/

/-- The Settings sub-model, restricted to the field the predicate touches. -/
structure SettingsModel where
  capturetarget : Option String
  deriving DecidableEq, Repr

/-- Lowercase a string (str.lower). -/
def lowerStr (s : String) : String := ⟨s.data.map Char.toLower⟩

/-- Substring containment on character lists (the Python in operator). -/
def listHasSub (pat : List Char) : List Char → Bool
  | [] => pat.isEmpty
  | c :: rest => pat.isPrefixOf (c :: rest) || listHasSub pat rest

/-- The Python expression pat in s for strings. -/
def strHasSub (pat s : String) : Bool := listHasSub pat.data s.data

/-- R6M2Config.is_sdcard_capture_enabled: attribute access on a None settings
sub-config or a None capturetarget raises AttributeError. -/
def is_sdcard_capture_enabled (settings : Option SettingsModel) :
    Except PyError Bool :=
  match settings with
  | none => .error .attributeError
  | some s =>
      match s.capturetarget with
      | none => .error .attributeError
      | some ct => .ok (strHasSub "card" (lowerStr ct))

/-! ### Device-file deletion policy after a download

src/pydslr/tools/camera.py line 486:
  if not keep_on_camera or not self.get_config().is_sdcard_capture_enabled():
src/app/tools/camera.py line 148 (earlier revision, inverted second operand):
  if not keep_on_camera or self.config.is_sdcard_capture_enabled(): -/

/-- Delete condition of the pydslr revision, given boolean operands. -/
def pydslr_delete_file (keep sdcard : Bool) : Bool := !keep || !sdcard

/-- Delete condition of the app revision, given boolean operands. -/
def app_delete_file (keep sdcard : Bool) : Bool := !keep || sdcard

/-- Modelled from the spec: the intended policy named in section 9 of the
spec, delete from the device unless the caller explicitly asked to keep the
file and the device is configured for card-based capture. -/
def claimed_delete_policy (keep sdcard : Bool) : Bool := !(keep && sdcard)

/-- The delete decision as evaluated in Camera.capture, with Python
short-circuiting: keep_on_camera=False decides true without evaluating
is_sdcard_capture_enabled; otherwise the predicate runs and may raise. -/
def deleteDecision (keep : Bool) (sdcard : Except PyError Bool) :
    Except PyError Bool :=
  if !keep then .ok true else sdcard.map fun s => !s

/-! ### Camera.capture (src/pydslr/tools/camera.py lines 462-494) -/

/-- Split a character list on dots (str.split for a one-character
separator). -/
def splitDots : List Char → List (List Char)
  | [] => [[]]
  | c :: rest =>
      let r := splitDots rest
      if c = '.' then [] :: r
      else
        match r with
        | [] => [[c]]
        | g :: gs => (c :: g) :: gs

/-- pathlib suffixes: the dot-extensions of a path string. -/
def sufList (p : String) : List String :=
  match splitDots p.data with
  | [] => []
  | _ :: rest => rest.map fun l => ⟨'.' :: l⟩

/-- The extension assertions at the top of Camera.capture: when a target path
is given, a RAW config requires .cr3 among the suffixes and a non-RAW config
requires .jpg or .jpeg; otherwise AssertionError. -/
def capture_path_check (isRaw : Bool) (path : Option String) :
    Except PyError Unit :=
  match path with
  | none => .ok ()
  | some p =>
      if isRaw then
        if ".cr3" ∈ sufList p then .ok () else .error .assertionError
      else
        if ".jpg" ∈ sufList p ∨ ".jpeg" ∈ sufList p then .ok ()
        else .error .assertionError

deriving instance DecidableEq for Except

/-- Observable trace of one Camera.capture call. -/
structure CaptureTrace where
  triggerAttempts : Nat
  saved : Option String
  deviceDeleted : Bool
  localUnlinked : Bool
  result : Except PyError String
  deriving DecidableEq, Repr

/-- Camera.capture: extension assertions, one gp_camera_capture trigger
attempt, local save, the device-delete decision, then the zero-byte check
(which unlinks the local file and raises).  size is the size of the
downloaded local file in bytes; trigger is the outcome of the single
gp_camera_capture call. -/
def camera_capture (isRaw : Bool) (path folder : Option String)
    (trigger : Except PyError FileRef) (size : Nat) (keep : Bool)
    (sdcard : Except PyError Bool) : CaptureTrace :=
  match capture_path_check isRaw path with
  | .error e => ⟨0, none, false, false, .error e⟩
  | .ok _ =>
      match trigger with
      | .error e => ⟨1, none, false, false, .error e⟩
      | .ok file =>
          let p :=
            match path with
            | some p => p
            | none =>
                match folder with
                | some fo => fo ++ "/" ++ file.name
                | none => file.name
          match deleteDecision keep sdcard with
          | .error e => ⟨1, some p, false, false, .error e⟩
          | .ok doDelete =>
              if size = 0 then ⟨1, some p, doDelete, true, .error .zeroByte⟩
              else ⟨1, some p, doDelete, false, .ok p⟩

/-! ### Camera.highspeed_capture download loop (lines 448-460)

  for file in _backlog:
      _, c_file = gp.gp_camera_file_get(...)
      c_path = folder / file.name
      paths.append(c_path)
      c_file.save(str(c_path))
      ...
      if not keep_on_camera or not ...is_sdcard_capture_enabled():
          gp.gp_camera_file_delete(...)
  return paths
There is no file-size check anywhere in this loop. -/

/-- Result of the burst download loop: the returned paths and the device
files deleted. -/
structure HSOut where
  paths : List String
  deviceDeleted : List FileRef
  deriving DecidableEq, Repr

/-- The highspeed_capture download loop.  size gives the byte size of each
downloaded file; the loop never consults it. -/
def highspeed_download (folder : String) (keep sdcard : Bool)
    (size : String → Nat) : List FileRef → HSOut
  | [] => ⟨[], []⟩
  | f :: rest =>
      let p := folder ++ "/" ++ f.name
      let out := highspeed_download folder keep sdcard size rest
      ⟨p :: out.paths,
        (if pydslr_delete_file keep sdcard then [f] else []) ++ out.deviceDeleted⟩

/-! ### Camera.bulb_capture (src/pydslr/tools/camera.py lines 370-404)

  self.set_config(self.get_config().press_shutter())
  time.sleep(shutter_press_time.total_seconds())
  self.set_config(self.get_config().release_shutter())
  ... event loop ... download ...
Straight-line statements with no try/finally. -/

/-- The externally visible steps of bulb_capture. -/
inductive BulbStep where
  | pressWrite
  | sleepStep
  | releaseWrite
  | eventLoop
  | downloadStep
  deriving DecidableEq, Repr

/-- bulb_capture control flow: each step is attempted only when every earlier
statement succeeded; the first exception propagates immediately.  Returns the
list of steps that were attempted together with the outcome. -/
def bulb_capture_steps (press sleepR release : Except PyError Unit)
    (eventOk : Bool) : List BulbStep × Except PyError Unit :=
  match press with
  | .error e => ([.pressWrite], .error e)
  | .ok _ =>
      match sleepR with
      | .error e => ([.pressWrite, .sleepStep], .error e)
      | .ok _ =>
          match release with
          | .error e => ([.pressWrite, .sleepStep, .releaseWrite], .error e)
          | .ok _ =>
              if eventOk then
                ([.pressWrite, .sleepStep, .releaseWrite, .eventLoop,
                  .downloadStep], .ok ())
              else
                ([.pressWrite, .sleepStep, .releaseWrite, .eventLoop],
                  .error .noCaptureEvent)

/-! ### Camera.focus_stack (src/pydslr/tools/camera.py lines 496-509)

  for _ in trange(n_images, ...):
      results.append(self.capture(path=folder, keep_on_camera=keep_on_camera))
      self.set_config(self.get_config().focus_step(distance=distance),
                      ignore_cache=True)
  return results
Note that the folder argument is forwarded as the path keyword of capture. -/

/-- Steps of the focus_stack loop. -/
inductive FSStep where
  | captureCall (path : Option String)
  | focusWrite (ignoreCache : Bool)
  deriving DecidableEq, Repr

/-- focus_stack: n iterations of capture (with the folder argument passed as
the capture target path) followed by a focus-step config write with
ignore_cache set.  names i and sizes i describe the i-th camera image. -/
def focus_stack_loop (isRaw : Bool) (folder : Option String) (keep : Bool)
    (sdcard : Except PyError Bool) (names : Nat → String) (sizes : Nat → Nat) :
    Nat → Nat → List FSStep × Except PyError (List String)
  | 0, _ => ([], .ok [])
  | k + 1, i =>
      let tr := camera_capture isRaw folder none (.ok ⟨"", names i⟩) (sizes i)
        keep sdcard
      match tr.result with
      | .error e => ([.captureCall folder], .error e)
      | .ok p =>
          let rest := focus_stack_loop isRaw folder keep sdcard names sizes k (i + 1)
          (.captureCall folder :: .focusWrite true :: rest.1,
            rest.2.map fun ps => p :: ps)

/-- Camera.focus_stack entry point. -/
def focus_stack (isRaw : Bool) (n : Nat) (folder : Option String) (keep : Bool)
    (sdcard : Except PyError Bool) (names : Nat → String) (sizes : Nat → Nat) :
    List FSStep × Except PyError (List String) :=
  focus_stack_loop isRaw folder keep sdcard names sizes n 0

/-! ### CaptureDevice.stream_preview (src/pydslr/tools/camera.py lines 58-93)

  count = 0
  while True:
      ... sleep for the fps remainder ...
      last = utcnow()
      if max_time is not None and (last - first) > max_time: return
      if max_images is not None and count >= max_images: return
      count += 1
      yield frame -/

/-- One run of the stream_preview loop, with an explicit fuel bound so the
function is total; the boolean reports whether the generator returned by
itself (rather than the fuel running out).  times i is the utcnow reading of
iteration i (milliseconds), firstT the utcnow reading taken before the loop;
sleeping for the fps delay only affects those readings, never the yields. -/
def stream_preview_loop {α : Type} (frames : Nat → α) (times : Nat → Nat)
    (firstT : Nat) (maxTime : Option Nat) (maxImages : Option Nat) :
    Nat → Nat → List α × Bool
  | 0, _ => ([], false)
  | fuel + 1, i =>
      if (match maxTime with
          | some mt => decide (times i - firstT > mt)
          | none => false) then
        ([], true)
      else if (match maxImages with
          | some m => decide (i ≥ m)
          | none => false) then
        ([], true)
      else
        let rest := stream_preview_loop frames times firstT maxTime maxImages fuel (i + 1)
        (frames i :: rest.1, rest.2)

/-- stream_preview from the first iteration (count = 0). -/
def stream_preview {α : Type} (frames : Nat → α) (times : Nat → Nat)
    (firstT : Nat) (maxTime : Option Nat) (maxImages : Option Nat)
    (fuel : Nat) : List α × Bool :=
  stream_preview_loop frames times firstT maxTime maxImages fuel 0

/-! ### Concrete fixtures used by witnesses and counterexamples -/

/-- Build a sub-config with exactly the given explicitly-set fields. -/
def mkSub (l : List (String × String)) : SubConfig where
  fieldsSet := l.map Prod.fst
  get := alookup l

/-- Build a typed config with exactly the given explicitly-set sub-configs. -/
def mkCfg (l : List (String × SubConfig)) : TypedConfig where
  fieldsSet := l.map Prod.fst
  get := alookup l

/-- A small R6M2-style schema: the settings and imgsettings sections. -/
def sc0 : Schema := ⟨[("settings", ["capturetarget"]), ("imgsettings", ["iso"])]⟩

/-- A live tree for sc0: capture target Internal RAM, ISO 100. -/
def tr0 : GPTree :=
  [⟨"settings", [("capturetarget", "Internal RAM")]⟩,
   ⟨"imgsettings", [("iso", "100")]⟩]

/-- The tree tr0 after switching the capture target to the memory card. -/
def tr1 : GPTree :=
  [⟨"settings", [("capturetarget", "Memory card")]⟩,
   ⟨"imgsettings", [("iso", "100")]⟩]

/-- A temporary config switching the capture target to the memory card. -/
def cfgB : TypedConfig :=
  mkCfg [("settings", mkSub [("capturetarget", "Memory card")])]

/-- The expected set_config outcome when applying cfgB on tr0. -/
def scOut0 : SetConfigOut :=
  ⟨["capturetarget"], [("capturetarget", "Memory card")], tr1, true⟩

/-- The expected set_config outcome when restoring tr0 from tr1. -/
def scOut1 : SetConfigOut :=
  ⟨["capturetarget"], [("capturetarget", "Internal RAM")], tr0, true⟩

end PyDSLR

namespace PyDSLR

/-! ## Theorems -/

/-! ### Association list and tree lemmas -/

theorem alookup_isSome_iff {β : Type} (l : List (String × β)) (k : String) :
    (alookup l k).isSome ↔ k ∈ l.map Prod.fst := by
  induction l with
  | nil => simp [alookup]
  | cons p rest ih =>
      obtain ⟨a, b⟩ := p
      by_cases h : a = k
      · subst h; simp [alookup]
      · simp [alookup, h, ih, Ne.symm h]

theorem alookup_mem_keys {β : Type} {l : List (String × β)} {k : String}
    {v : β} (h : alookup l k = some v) : k ∈ l.map Prod.fst := by
  have : (alookup l k).isSome := by rw [h]; rfl
  exact (alookup_isSome_iff l k).1 this

theorem alookup_mem_pair {β : Type} {l : List (String × β)} {k : String}
    {v : β} (h : alookup l k = some v) : (k, v) ∈ l := by
  induction l with
  | nil => simp [alookup] at h
  | cons p rest ih =>
      obtain ⟨a, b⟩ := p
      by_cases ha : a = k
      · subst ha
        simp [alookup] at h
        simp [h]
      · simp [alookup, ha] at h
        simp [ih h]

theorem setLeaf_none_iff (l : List (String × String)) (f v : String) :
    setLeaf l f v = none ↔ alookup l f = none := by
  induction l with
  | nil => simp [setLeaf, alookup]
  | cons p rest ih =>
      obtain ⟨a, b⟩ := p
      by_cases h : a = f
      · subst h; simp [setLeaf, alookup]
      · simp [setLeaf, alookup, h, ih]

theorem setLeaf_keys {l l' : List (String × String)} {f v : String}
    (h : setLeaf l f v = some l') : l'.map Prod.fst = l.map Prod.fst := by
  induction l generalizing l' with
  | nil => simp [setLeaf] at h
  | cons p rest ih =>
      obtain ⟨a, b⟩ := p
      by_cases ha : a = f
      · subst ha
        simp [setLeaf] at h
        subst h; simp
      · simp [setLeaf, ha] at h
        obtain ⟨l2, hl2, rfl⟩ := h
        simp [ih hl2]

theorem setLeaf_alookup_self {l l' : List (String × String)} {f v : String}
    (h : setLeaf l f v = some l') : alookup l' f = some v := by
  induction l generalizing l' with
  | nil => simp [setLeaf] at h
  | cons p rest ih =>
      obtain ⟨a, b⟩ := p
      by_cases ha : a = f
      · subst ha
        simp [setLeaf] at h
        subst h; simp [alookup]
      · simp [setLeaf, ha] at h
        obtain ⟨l2, hl2, rfl⟩ := h
        simp [alookup, ha, ih hl2]

theorem setLeaf_alookup_other {l l' : List (String × String)} {f v g : String}
    (h : setLeaf l f v = some l') (hg : g ≠ f) :
    alookup l' g = alookup l g := by
  induction l generalizing l' with
  | nil => simp [setLeaf] at h
  | cons p rest ih =>
      obtain ⟨a, b⟩ := p
      by_cases ha : a = f
      · subst ha
        simp [setLeaf] at h
        subst h
        simp [alookup, Ne.symm hg]
      · simp [setLeaf, ha] at h
        obtain ⟨l2, hl2, rfl⟩ := h
        by_cases hag : a = g
        · subst hag; simp [alookup]
        · simp [alookup, hag, ih hl2]

theorem treeWrite_none_iff (t : GPTree) (f v : String) :
    treeWrite t f v = none ↔ treeLookup t f = none := by
  induction t with
  | nil => simp [treeWrite, treeLookup]
  | cons s rest ih =>
      by_cases h : alookup s.leaves f = none
      · have hsl : setLeaf s.leaves f v = none := (setLeaf_none_iff _ _ _).2 h
        simp [treeWrite, treeLookup, hsl, h, ih]
      · obtain ⟨w, hw⟩ := Option.ne_none_iff_exists'.1 h
        have hsl : setLeaf s.leaves f v ≠ none := by
          rw [Ne, setLeaf_none_iff]; exact h
        obtain ⟨ls, hls⟩ := Option.ne_none_iff_exists'.1 hsl
        simp [treeWrite, treeLookup, hls, hw]

theorem treeWrite_shape {t t' : GPTree} {f v : String}
    (h : treeWrite t f v = some t') : treeShape t' = treeShape t := by
  induction t generalizing t' with
  | nil => simp [treeWrite] at h
  | cons s rest ih =>
      by_cases hsl : setLeaf s.leaves f v = none
      · simp [treeWrite, hsl] at h
        obtain ⟨t2, ht2, rfl⟩ := h
        simp [treeShape] at ih ⊢
        exact ih ht2
      · obtain ⟨ls, hls⟩ := Option.ne_none_iff_exists'.1 hsl
        simp [treeWrite, hls] at h
        subst h
        simp [treeShape, setLeaf_keys hls]

theorem treeWrite_lookup_self {t t' : GPTree} {f v : String}
    (h : treeWrite t f v = some t') : treeLookup t' f = some v := by
  induction t generalizing t' with
  | nil => simp [treeWrite] at h
  | cons s rest ih =>
      by_cases hsl : setLeaf s.leaves f v = none
      · simp [treeWrite, hsl] at h
        obtain ⟨t2, ht2, rfl⟩ := h
        have hlk : alookup s.leaves f = none := (setLeaf_none_iff _ _ _).1 hsl
        simp [treeLookup, hlk, ih ht2]
      · obtain ⟨ls, hls⟩ := Option.ne_none_iff_exists'.1 hsl
        simp [treeWrite, hls] at h
        subst h
        simp [treeLookup, setLeaf_alookup_self hls]

theorem treeWrite_lookup_other {t t' : GPTree} {f v g : String}
    (h : treeWrite t f v = some t') (hg : g ≠ f) :
    treeLookup t' g = treeLookup t g := by
  induction t generalizing t' with
  | nil => simp [treeWrite] at h
  | cons s rest ih =>
      by_cases hsl : setLeaf s.leaves f v = none
      · simp [treeWrite, hsl] at h
        obtain ⟨t2, ht2, rfl⟩ := h
        simp [treeLookup, ih ht2]
      · obtain ⟨ls, hls⟩ := Option.ne_none_iff_exists'.1 hsl
        simp [treeWrite, hls] at h
        subst h
        simp [treeLookup, setLeaf_alookup_other hls hg]

theorem treeNames_eq_shape (t : GPTree) :
    treeNames t = ((treeShape t).map Prod.snd).flatten := by
  simp only [treeNames, treeShape, List.map_map]
  rfl

theorem sectionNames_eq_shape (t : GPTree) :
    t.map GPSection.name = (treeShape t).map Prod.fst := by
  simp [treeShape, List.map_map]

theorem treeNames_cons (s : GPSection) (rest : GPTree) :
    treeNames (s :: rest) = s.leaves.map Prod.fst ++ treeNames rest := by
  simp [treeNames]

theorem treeNames_of_shape {t t' : GPTree} (h : treeShape t = treeShape t') :
    treeNames t = treeNames t' := by
  rw [treeNames_eq_shape, treeNames_eq_shape, h]

theorem treeWF_of_shape {t t' : GPTree} (h : treeShape t = treeShape t') :
    TreeWF t ↔ TreeWF t' := by
  unfold TreeWF
  rw [sectionNames_eq_shape, sectionNames_eq_shape, treeNames_eq_shape,
    treeNames_eq_shape, h]

theorem treeLookup_isSome_iff (t : GPTree) (f : String) :
    (treeLookup t f).isSome ↔ f ∈ treeNames t := by
  induction t with
  | nil => simp [treeLookup, treeNames]
  | cons s rest ih =>
      rw [treeNames_cons]
      by_cases h : alookup s.leaves f = none
      · have hnm : f ∉ s.leaves.map Prod.fst := by
          rw [← alookup_isSome_iff, h]; simp
        simp [treeLookup, h, hnm, ih]
      · obtain ⟨w, hw⟩ := Option.ne_none_iff_exists'.1 h
        have hm : f ∈ s.leaves.map Prod.fst := alookup_mem_keys hw
        simp [treeLookup, hw, hm]

theorem findSection_mem {t : GPTree} {s : String} {sec : GPSection}
    (h : findSection t s = some sec) : sec ∈ t := by
  induction t with
  | nil => simp [findSection] at h
  | cons s0 rest ih =>
      by_cases h0 : s0.name = s
      · simp [findSection, h0] at h
        simp [h]
      · simp [findSection, h0] at h
        simp [ih h]

theorem localValue_mem_names {t : GPTree} {s g u : String}
    (h : localValue t s g = some u) : g ∈ treeNames t := by
  unfold localValue at h
  cases hf : findSection t s with
  | none => rw [hf] at h; simp at h
  | some sec =>
      rw [hf] at h
      simp at h
      have hmem : g ∈ sec.leaves.map Prod.fst := alookup_mem_keys h
      have hsec : sec ∈ t := findSection_mem hf
      unfold treeNames
      rw [List.mem_flatten]
      exact ⟨sec.leaves.map Prod.fst, List.mem_map_of_mem _ hsec, hmem⟩

theorem treeLookup_of_localValue {t : GPTree} {s g u : String}
    (hWF : TreeWF t) (h : localValue t s g = some u) :
    treeLookup t g = some u := by
  induction t with
  | nil => simp [localValue, findSection] at h
  | cons s0 rest ih =>
      obtain ⟨hsec, hnames⟩ := hWF
      rw [treeNames_cons] at hnames
      by_cases h0 : s0.name = s
      · have : findSection (s0 :: rest) s = some s0 := by simp [findSection, h0]
        unfold localValue at h
        rw [this] at h
        simp at h
        simp [treeLookup, h]
      · have hfs : findSection (s0 :: rest) s = findSection rest s := by
          simp [findSection, h0]
        have hloc : localValue rest s g = some u := by
          unfold localValue at h ⊢
          rw [hfs] at h
          exact h
        have hWFr : TreeWF rest :=
          ⟨by simpa using hsec.of_cons, hnames.of_append_right⟩
        have hgr : g ∈ treeNames rest := localValue_mem_names hloc
        have hnot : alookup s0.leaves g = none := by
          cases ha : alookup s0.leaves g with
          | none => rfl
          | some w =>
              have h1 : g ∈ s0.leaves.map Prod.fst := alookup_mem_keys ha
              exact ((List.disjoint_of_nodup_append hnames) h1 hgr).elim
        simp [treeLookup, hnot, ih hWFr hloc]

/-- C1: the claim states that config_context re-applies the original values
of the changed fields even when the enclosed operation raises.  The source
generator has no try/finally around its yield, so on an exception the
restoring set_config line never runs: entering the context switches
capturetarget from Internal RAM to Memory card, the body raises, and the
final tree still holds Memory card. -/
theorem config_context_no_restore_on_error :
    (config_context sc0 tr0 cfgB (fun _ => .error .gpError)).1 = .error .gpError ∧
    (config_context sc0 tr0 cfgB (fun _ => .error .gpError)).2 = tr1 ∧
    treeLookup (config_context sc0 tr0 cfgB (fun _ => .error .gpError)).2
      "capturetarget" = some "Memory card" ∧
    treeLookup tr0 "capturetarget" = some "Internal RAM" :=
  ⟨rfl, rfl, rfl, rfl⟩

/-- C4: the claim states that bulb_capture always attempts the release
shutter write even when the sleep (or anything after the press write)
failed.  The source is straight-line code with no try/finally: when the
sleep raises, the call propagates the error and the release write is never
attempted, leaving the shutter logically pressed. -/
theorem bulb_release_skipped_on_sleep_error :
    BulbStep.releaseWrite ∉
      (bulb_capture_steps (.ok ()) (.error .gpError) (.ok ()) true).1 ∧
    (bulb_capture_steps (.ok ()) (.error .gpError) (.ok ()) true).2 =
      .error .gpError ∧
    BulbStep.pressWrite ∈
      (bulb_capture_steps (.ok ()) (.error .gpError) (.ok ()) true).1 := by
  decide

/-- C5 counterexample: in the high-speed burst download loop a zero-byte
downloaded file is neither removed nor excluded: with every downloaded file
reading back as zero bytes, the loop still returns the file's path. -/
theorem highspeed_zero_byte_not_excluded :
    (highspeed_download "out" false true (fun _ => 0)
        [⟨"store", "IMG_0001.JPG"⟩]).paths = ["out/IMG_0001.JPG"] ∧
    (fun (_ : String) => (0 : Nat)) "out/IMG_0001.JPG" = 0 :=
  ⟨rfl, rfl⟩

/-- C5 amended: only the single-capture path checks for zero-byte downloads;
there it unlinks the local file and fails the call (so its only image is
never returned), while the high-speed burst download loop performs no size
check at all and returns every downloaded path. -/
theorem zero_byte_single_capture_only :
    (∀ (fr : FileRef) (keep s : Bool) (folder : Option String),
      (camera_capture false none folder (.ok fr) 0 keep (.ok s)).localUnlinked
          = true ∧
      (camera_capture false none folder (.ok fr) 0 keep (.ok s)).result
          = .error .zeroByte) ∧
    (∀ (folder : String) (keep sdcard : Bool) (size : String → Nat)
        (backlog : List FileRef),
      (highspeed_download folder keep sdcard size backlog).paths =
        backlog.map fun f => folder ++ "/" ++ f.name) := by
  constructor
  · intro fr keep s folder
    cases keep <;>
      simp [camera_capture, capture_path_check, deleteDecision, Except.map]
  · intro folder keep sdcard size backlog
    induction backlog with
    | nil => rfl
    | cons f rest ih => simp [highspeed_download, ih]

/-- C6: the delete-after-download policy.  The claim (and the pydslr
revision) delete the device file unless the caller asked to keep it and the
device captures to the card; the app revision inverts the second operand and
deletes exactly when keep_on_camera=True and card capture is active, the one
case the claim says must be kept.  With keep_on_camera=False both revisions
always delete. -/
theorem app_capture_delete_inverted :
    app_delete_file true true = true ∧
    claimed_delete_policy true true = false ∧
    pydslr_delete_file true true = false ∧
    (∀ k s, pydslr_delete_file k s = claimed_delete_policy k s) ∧
    (∀ s, app_delete_file false s = true ∧ pydslr_delete_file false s = true) := by
  decide

/-- C7 counterexample: Camera.capture performs its hardware trigger exactly
once — with a trigger that fails on the first attempt (and would succeed on
a retry), the whole call fails after a single attempt instead of retrying up
to 5 times with backoff. -/
theorem capture_no_retry_counterexample :
    camera_capture false none none (.error .gpError) 5 false (.ok true) =
      ⟨1, none, false, false, .error .gpError⟩ :=
  rfl

/-- C7 amended: every single-capture call performs exactly one
trigger-and-collect attempt; a trigger failure propagates immediately with
no retry, no backoff, and no partial state (nothing saved locally, nothing
deleted anywhere). -/
theorem capture_single_attempt (isRaw : Bool) (folder : Option String)
    (e : PyError) (size : Nat) (keep : Bool) (sdcard : Except PyError Bool) :
    camera_capture isRaw none folder (.error e) size keep sdcard =
      ⟨1, none, false, false, .error e⟩ := by
  simp [camera_capture, capture_path_check]

/-- C8: focus_stack forwards its folder argument as the path keyword of
capture, so with a destination folder (no image extension) the very first
capture fails its extension assertion instead of saving into the folder
under the camera file name; with no folder, images land in the current
directory under the camera names and all n paths are returned. -/
theorem focus_stack_folder_passed_as_target_path :
    focus_stack false 1 (some "shots") false (.ok true)
        (fun _ => "IMG_0001.jpg") (fun _ => 100) =
      ([.captureCall (some "shots")], .error .assertionError) ∧
    focus_stack false 2 none false (.ok true)
        (fun i => if i = 0 then "a.jpg" else "b.jpg") (fun _ => 100) =
      ([.captureCall none, .focusWrite true, .captureCall none,
        .focusWrite true], .ok ["a.jpg", "b.jpg"]) :=
  ⟨rfl, rfl⟩

/-- C10: with a None settings sub-config (or a None capturetarget field),
is_sdcard_capture_enabled raises AttributeError instead of returning a
boolean; a capture with keep_on_camera=True on such a configuration
evaluates it after the local save and fails there, while keep_on_camera=False
short-circuits the or and never evaluates it (the outcome is independent of
the predicate). -/
theorem sdcard_none_attribute_error (st : Option SettingsModel)
    (h : st = none ∨ ∃ s, st = some s ∧ s.capturetarget = none) :
    is_sdcard_capture_enabled st = .error .attributeError ∧
    (∀ (isRaw : Bool) (folder : Option String) (fr : FileRef) (size : Nat),
      (camera_capture isRaw none folder (.ok fr) size true
          (is_sdcard_capture_enabled st)).result = .error .attributeError ∧
      (camera_capture isRaw none folder (.ok fr) size true
          (is_sdcard_capture_enabled st)).saved.isSome = true) ∧
    (∀ (isRaw : Bool) (folder : Option String) (fr : FileRef) (size : Nat)
        (s1 s2 : Except PyError Bool),
      camera_capture isRaw none folder (.ok fr) size false s1 =
        camera_capture isRaw none folder (.ok fr) size false s2) := by
  have herr : is_sdcard_capture_enabled st = .error .attributeError := by
    rcases h with h | ⟨s, hs, hct⟩
    · rw [h]; rfl
    · rw [hs]; simp [is_sdcard_capture_enabled, hct]
  refine ⟨herr, ?_, ?_⟩
  · intro isRaw folder fr size
    simp [camera_capture, capture_path_check, deleteDecision, herr, Except.map]
  · intro isRaw folder fr size s1 s2
    simp [camera_capture, capture_path_check, deleteDecision]

/-- With no time bound and an image bound of n, the stream loop started at
iteration i emits exactly the frames i, i+1, ..., n-1 and then returns, as
long as enough fuel remains to reach the bound check. -/
theorem stream_preview_loop_exact {α : Type} (frames : Nat → α)
    (times : Nat → Nat) (firstT n : Nat) :
    ∀ fuel i, n - i + 1 ≤ fuel →
      stream_preview_loop frames times firstT none (some n) fuel i =
        ((List.range' i (n - i)).map frames, true) := by
  intro fuel
  induction fuel with
  | zero => intro i h; omega
  | succ f ih =>
      intro i h
      by_cases hi : i ≥ n
      · have hz : n - i = 0 := by omega
        simp [stream_preview_loop, hi, hz]
      · have h1 : n - (i + 1) + 1 ≤ f := by omega
        have h2 : n - i = n - (i + 1) + 1 := by omega
        simp only [stream_preview_loop, decide_eq_true_eq, if_neg hi, ih (i + 1) h1]
        rw [h2, List.range'_succ]
        simp

/-- C9: stream_preview with max_images = n (max_time and max_fps unset)
yields exactly the first n frames and then terminates: any fuel beyond n is
never consumed, the generator returns by itself. -/
theorem stream_preview_exact_count {α : Type} (frames : Nat → α)
    (times : Nat → Nat) (firstT n fuel : Nat) (hn : 0 < n)
    (hfuel : n < fuel) :
    stream_preview frames times firstT none (some n) fuel =
      ((List.range n).map frames, true) ∧
    (stream_preview frames times firstT none (some n) fuel).1.length = n := by
  have h := stream_preview_loop_exact frames times firstT n fuel 0 (by omega)
  rw [stream_preview, h]
  simp only [Nat.sub_zero]
  constructor
  · rw [List.range_eq_range']
  · simp

/-- Witness for C9: five frames from a stream bounded by max_images = 5. -/
theorem stream_preview_exact_count_witness :
    0 < 5 ∧ 5 < 6 ∧
    stream_preview (fun i => i) (fun _ => 0) 0 none (some 5) 6 =
      ((List.range 5).map fun i => i, true) :=
  ⟨by decide, by decide,
    (stream_preview_exact_count (fun i => i) (fun _ => 0) 0 5 6 (by decide)
      (by decide)).1⟩

theorem applyLog_append (ws1 ws2 : List (String × String)) :
    ∀ t : GPTree, applyLog t (ws1 ++ ws2) = applyLog (applyLog t ws1) ws2 := by
  induction ws1 with
  | nil => intro t; rfl
  | cons w ws ih =>
      intro t
      obtain ⟨f, v⟩ := w
      simp [applyLog, ih]

theorem applyLog_shape (ws : List (String × String)) :
    ∀ t : GPTree, treeShape (applyLog t ws) = treeShape t := by
  induction ws with
  | nil => intro t; rfl
  | cons w ws ih =>
      intro t
      obtain ⟨f, v⟩ := w
      rw [applyLog, ih]
      cases h : treeWrite t f v with
      | none => simp
      | some t2 => simp [treeWrite_shape h]

theorem logLast_eq_none_iff (ws : List (String × String)) (g : String) :
    logLast ws g = none ↔ g ∉ ws.map Prod.fst := by
  induction ws with
  | nil => simp [logLast]
  | cons w ws ih =>
      unfold logLast
      cases h : logLast ws g with
      | some v =>
          have : g ∈ ws.map Prod.fst := by
            by_contra hc
            rw [ih.2 hc] at h
            exact Option.noConfusion h
          simp [this]
      | none =>
          by_cases hw : w.1 = g
          · simp [hw]
          · simp [hw, ih.1 h, Ne.symm hw]

theorem logLast_mem {ws : List (String × String)} {g v : String}
    (h : logLast ws g = some v) : (g, v) ∈ ws := by
  induction ws with
  | nil => simp [logLast] at h
  | cons w ws ih =>
      unfold logLast at h
      cases h2 : logLast ws g with
      | some v2 =>
          rw [h2] at h
          simp at h
          subst h
          exact List.mem_cons_of_mem _ (ih h2)
      | none =>
          rw [h2] at h
          by_cases hw : w.1 = g
          · rw [if_pos hw] at h
            simp at h
            have : w = (g, v) := by
              obtain ⟨a, b⟩ := w
              simp at hw h
              simp [hw, h]
            simp [this]
          · rw [if_neg hw] at h
            exact Option.noConfusion h

theorem logLast_of_all_eq {ws : List (String × String)} {g v : String}
    (hall : ∀ w ∈ ws, w.1 = g → w.2 = v) (hmem : g ∈ ws.map Prod.fst) :
    logLast ws g = some v := by
  induction ws with
  | nil => simp at hmem
  | cons w ws ih =>
      unfold logLast
      by_cases h2 : g ∈ ws.map Prod.fst
      · rw [ih (fun w hw => hall w (List.mem_cons_of_mem _ hw)) h2]
      · rw [(logLast_eq_none_iff ws g).2 h2]
        have hmem' : g ∈ w.1 :: ws.map Prod.fst := by simpa using hmem
        have hw1 : w.1 = g := by
          rcases List.mem_cons.1 hmem' with h | h
          · exact h.symm
          · exact absurd h h2
        rw [if_pos hw1, hall w (List.mem_cons_self w ws) hw1]

theorem applyLog_lookup_notmem (ws : List (String × String)) (g : String) :
    ∀ t : GPTree, g ∉ ws.map Prod.fst →
      treeLookup (applyLog t ws) g = treeLookup t g := by
  induction ws with
  | nil => intro t _; rfl
  | cons w ws ih =>
      intro t hg
      obtain ⟨f, v⟩ := w
      simp at hg
      push_neg at hg
      rw [applyLog]
      cases h : treeWrite t f v with
      | none => simp [ih _ (by simpa using hg.2)]
      | some t2 =>
          simp [ih _ (by simpa using hg.2)]
          exact treeWrite_lookup_other h hg.1

theorem applyLog_lookup_last {ws : List (String × String)} {g v : String} :
    ∀ t : GPTree, (∀ w ∈ ws, (treeLookup t w.1).isSome) →
      logLast ws g = some v →
      treeLookup (applyLog t ws) g = some v := by
  induction ws with
  | nil => intro t _ h; simp [logLast] at h
  | cons w ws ih =>
      intro t hok hlast
      obtain ⟨f, u⟩ := w
      have hfok : (treeLookup t f).isSome := hok (f, u) (List.mem_cons_self _ _)
      have hw : treeWrite t f u ≠ none := by
        rw [Ne, treeWrite_none_iff]
        intro hc
        rw [hc] at hfok
        exact Bool.noConfusion hfok
      obtain ⟨t2, ht2⟩ := Option.ne_none_iff_exists'.1 hw
      rw [applyLog, ht2]
      simp only [Option.getD_some]
      have hok2 : ∀ w2 ∈ ws, (treeLookup t2 w2.1).isSome := by
        intro w2 hw2
        have hshape := treeWrite_shape ht2
        rw [treeLookup_isSome_iff, treeNames_of_shape hshape,
          ← treeLookup_isSome_iff]
        exact hok w2 (List.mem_cons_of_mem _ hw2)
      unfold logLast at hlast
      cases h2 : logLast ws g with
      | some v2 =>
          rw [h2] at hlast
          simp at hlast
          subst hlast
          exact ih t2 hok2 h2
      | none =>
          rw [h2] at hlast
          by_cases hfg : f = g
          · rw [if_pos hfg] at hlast
            simp at hlast
            have hnmem : g ∉ ws.map Prod.fst := (logLast_eq_none_iff ws g).1 h2
            rw [applyLog_lookup_notmem ws g t2 hnmem]
            rw [← hfg, ← hlast]
            exact treeWrite_lookup_self ht2
          · rw [if_neg hfg] at hlast
            exact Option.noConfusion hlast

/-! ### Decode lemmas -/

theorem decode_get_some {sc : Schema} {t : GPTree} {f : String}
    {sub : SubConfig} :
    (decode sc t).get f = some sub ↔
      ∃ fl sec, alookup sc.sections f = some fl ∧ findSection t f = some sec ∧
        sub = decodeSub fl sec.leaves := by
  show (match alookup sc.sections f, findSection t f with
    | some fields, some sec => some (decodeSub fields sec.leaves)
    | _, _ => none) = some sub ↔ _
  cases h1 : alookup sc.sections f <;> cases h2 : findSection t f <;>
    simp [h1, h2, eq_comm]

theorem decodeSub_get_mem {fl : List String} {lv : List (String × String)}
    {f2 : String} (h : f2 ∈ fl) :
    (decodeSub fl lv).get f2 = alookup lv f2 := by
  simp [decodeSub, h]

theorem decodeSub_get_some {fl : List String} {lv : List (String × String)}
    {f2 v : String} (h : (decodeSub fl lv).get f2 = some v) :
    f2 ∈ fl ∧ alookup lv f2 = some v := by
  by_cases h2 : f2 ∈ fl
  · rw [decodeSub_get_mem h2] at h
    exact ⟨h2, h⟩
  · simp [decodeSub, h2] at h

theorem decodeSub_fieldsSet {fl : List String} {lv : List (String × String)}
    {f2 : String} :
    f2 ∈ (decodeSub fl lv).fieldsSet ↔ f2 ∈ fl ∧ (alookup lv f2).isSome := by
  simp [decodeSub, List.mem_filter]

theorem decode_fieldsSet {sc : Schema} {t : GPTree} {f : String} :
    f ∈ (decode sc t).fieldsSet ↔
      f ∈ sc.sections.map Prod.fst ∧ (findSection t f).isSome := by
  simp [decode, List.mem_filter]

theorem findSection_shape {t t' : GPTree} (h : treeShape t = treeShape t')
    (s : String) :
    Option.map (fun sec => sec.leaves.map Prod.fst) (findSection t s) =
      Option.map (fun sec => sec.leaves.map Prod.fst) (findSection t' s) := by
  induction t generalizing t' with
  | nil =>
      cases t' with
      | nil => rfl
      | cons a b => simp [treeShape] at h
  | cons s0 rest ih =>
      cases t' with
      | nil => simp [treeShape] at h
      | cons s0' rest' =>
          simp [treeShape] at h
          obtain ⟨⟨hname, hkeys⟩, hrest⟩ := h
          by_cases hs : s0.name = s
          · have hs' : s0'.name = s := by rw [← hname]; exact hs
            simp [findSection, hs, hs', hkeys]
          · have hs' : ¬s0'.name = s := by rw [← hname]; exact hs
            simp only [findSection, if_neg hs, if_neg hs']
            exact ih (by simpa [treeShape] using hrest)

theorem skipOnly_some_eq_false {l : List String} {x : String} :
    skipOnly (some l) x = false ↔ x ∈ l := by
  by_cases h : x ∈ l <;> simp [skipOnly, h]

theorem addName_mem (l : List String) (f x : String) :
    x ∈ addName l f ↔ x ∈ l ∨ x = f := by
  unfold addName
  by_cases h : f ∈ l
  · rw [if_pos h]
    constructor
    · exact Or.inl
    · rintro (hx | rfl)
      · exact hx
      · exact h
  · rw [if_neg h]
    simp

/-! ### set_config loop characterization -/

theorem stageFields_sound {oldC : TypedConfig} {f : String} {sub : SubConfig}
    {onlyF : Option (List String)} :
    ∀ (l upd : List String) (log : List (String × String)) (t : GPTree)
      (upd' : List String) (log' : List (String × String)) (t' : GPTree),
      stageFields oldC f sub onlyF l upd log t = .ok (upd', log', t') →
      ∃ ws, log' = log ++ ws ∧ t' = applyLog t ws ∧
        (∀ x, x ∈ upd' ↔ (x ∈ upd ∨ x ∈ ws.map Prod.fst)) ∧
        (∀ w ∈ ws, skipOnly onlyF w.1 = false ∧ w.1 ∈ l ∧
          sub.get w.1 = some w.2 ∧
          (∃ oS, oldC.get f = some oS ∧ oS.get w.1 ≠ some w.2) ∧
          (treeLookup t w.1).isSome) := by
  intro l
  induction l with
  | nil =>
      intro upd log t upd' log' t' h
      simp only [stageFields, Except.ok.injEq, Prod.mk.injEq] at h
      obtain ⟨h1, h2, h3⟩ := h
      subst h1; subst h2; subst h3
      refine ⟨[], by simp, rfl, by simp, by simp⟩
  | cons f2 rest ih =>
      intro upd log t upd' log' t' h
      simp only [stageFields] at h
      split at h
      · obtain ⟨ws, hlog, ht, hupd, hcond⟩ :=
          ih upd log t upd' log' t' h
        refine ⟨ws, hlog, ht, hupd, ?_⟩
        intro w hw
        obtain ⟨c1, c2, c3, c4, c5⟩ := hcond w hw
        exact ⟨c1, List.mem_cons_of_mem _ c2, c3, c4, c5⟩
      · rename_i hskip
        split at h
        · exact Except.noConfusion h
        · rename_i oldSub hold
          split at h
          · obtain ⟨ws, hlog, ht, hupd, hcond⟩ :=
              ih upd log t upd' log' t' h
            refine ⟨ws, hlog, ht, hupd, ?_⟩
            intro w hw
            obtain ⟨c1, c2, c3, c4, c5⟩ := hcond w hw
            exact ⟨c1, List.mem_cons_of_mem _ c2, c3, c4, c5⟩
          · rename_i v hv
            split at h
            · obtain ⟨ws, hlog, ht, hupd, hcond⟩ :=
                ih upd log t upd' log' t' h
              refine ⟨ws, hlog, ht, hupd, ?_⟩
              intro w hw
              obtain ⟨c1, c2, c3, c4, c5⟩ := hcond w hw
              exact ⟨c1, List.mem_cons_of_mem _ c2, c3, c4, c5⟩
            · rename_i hne
              split at h
              · exact Except.noConfusion h
              · rename_i t2 hw2
                obtain ⟨ws', hlog, ht, hupd, hcond⟩ :=
                  ih (addName upd f2) (log ++ [(f2, v)]) t2 upd' log' t' h
                refine ⟨(f2, v) :: ws', ?_, ?_, ?_, ?_⟩
                · rw [hlog]; simp
                · rw [ht, applyLog, hw2]; rfl
                · intro x
                  rw [hupd x, addName_mem]
                  simp only [List.map_cons, List.mem_cons]
                  tauto
                · intro w hw
                  rcases List.mem_cons.1 hw with rfl | hmem
                  · refine ⟨?_, List.mem_cons_self _ _, hv, ⟨oldSub, hold, hne⟩, ?_⟩
                    · exact Bool.not_eq_true _ ▸ Bool.of_not_eq_true hskip
                    · rw [Option.isSome_iff_ne_none, Ne, ← treeWrite_none_iff t f2 v, hw2]
                      exact fun hc => Option.noConfusion hc
                  · obtain ⟨c1, c2, c3, c4, c5⟩ := hcond w hmem
                    refine ⟨c1, List.mem_cons_of_mem _ c2, c3, c4, ?_⟩
                    rw [treeLookup_isSome_iff,
                      treeNames_of_shape (treeWrite_shape hw2).symm,
                      ← treeLookup_isSome_iff]
                    exact c5

theorem stageAll_sound {oldC newC : TypedConfig} {onlyF : Option (List String)} :
    ∀ (fs upd : List String) (log : List (String × String)) (t : GPTree)
      (upd' : List String) (log' : List (String × String)) (t' : GPTree),
      stageAll oldC newC onlyF fs upd log t = .ok (upd', log', t') →
      ∃ ws, log' = log ++ ws ∧ t' = applyLog t ws ∧
        (∀ x, x ∈ upd' ↔ (x ∈ upd ∨ x ∈ ws.map Prod.fst)) ∧
        (∀ w ∈ ws, ∃ f sub, f ∈ fs ∧ newC.get f = some sub ∧
          skipOnly onlyF w.1 = false ∧ w.1 ∈ sub.fieldsSet ∧
          sub.get w.1 = some w.2 ∧
          (∃ oS, oldC.get f = some oS ∧ oS.get w.1 ≠ some w.2) ∧
          (treeLookup t w.1).isSome) := by
  intro fs
  induction fs with
  | nil =>
      intro upd log t upd' log' t' h
      simp only [stageAll, Except.ok.injEq, Prod.mk.injEq] at h
      obtain ⟨h1, h2, h3⟩ := h
      subst h1; subst h2; subst h3
      refine ⟨[], by simp, rfl, by simp, by simp⟩
  | cons f fsrest ih =>
      intro upd log t upd' log' t' h
      simp only [stageAll] at h
      split at h
      · obtain ⟨ws, hlog, ht, hupd, hcond⟩ :=
          ih upd log t upd' log' t' h
        refine ⟨ws, hlog, ht, hupd, ?_⟩
        intro w hw
        obtain ⟨f', sub', c0, c1, c2, c3, c4, c5, c6⟩ := hcond w hw
        exact ⟨f', sub', List.mem_cons_of_mem _ c0, c1, c2, c3, c4, c5, c6⟩
      · rename_i sub hsub
        split at h
        · exact Except.noConfusion h
        · rename_i upd2 log2 t2 hsf
          obtain ⟨ws1, hlog1, ht1, hupd1, hcond1⟩ :=
            stageFields_sound sub.fieldsSet upd log t upd2 log2 t2 hsf
          obtain ⟨ws2, hlog2, ht2, hupd2, hcond2⟩ :=
            ih upd2 log2 t2 upd' log' t' h
          refine ⟨ws1 ++ ws2, ?_, ?_, ?_, ?_⟩
          · rw [hlog2, hlog1, List.append_assoc]
          · rw [ht2, ht1, applyLog_append]
          · intro x
            rw [hupd2 x, hupd1 x]
            simp only [List.map_append, List.mem_append]
            tauto
          · intro w hw
            rcases List.mem_append.1 hw with hmem | hmem
            · obtain ⟨c1, c2, c3, c4, c5⟩ := hcond1 w hmem
              exact ⟨f, sub, List.mem_cons_self _ _, hsub, c1, c2, c3, c4, c5⟩
            · obtain ⟨f', sub', c0, c1, c2, c3, c4, c5, c6⟩ := hcond2 w hmem
              refine ⟨f', sub', List.mem_cons_of_mem _ c0, c1, c2, c3, c4, c5, ?_⟩
              rw [treeLookup_isSome_iff,
                treeNames_of_shape (ht1 ▸ applyLog_shape ws1 t).symm,
                ← treeLookup_isSome_iff]
              exact c6

theorem stageFields_complete {oldC : TypedConfig} {f : String} {sub : SubConfig}
    {onlyF : Option (List String)} :
    ∀ (l upd : List String) (log : List (String × String)) (t : GPTree)
      (out : List String × List (String × String) × GPTree),
      stageFields oldC f sub onlyF l upd log t = .ok out →
      ∀ f2 v oS, f2 ∈ l → skipOnly onlyF f2 = false → sub.get f2 = some v →
        oldC.get f = some oS → oS.get f2 ≠ some v →
        (f2, v) ∈ out.2.1 := by
  intro l
  induction l with
  | nil =>
      intro upd log t out h f2 v oS hmem
      simp at hmem
  | cons g rest ih =>
      intro upd log t out h f2 v oS hmem hskipF hv hold hne
      simp only [stageFields] at h
      split at h
      · rename_i hskip
        rcases List.mem_cons.1 hmem with rfl | hmem2
        · rw [hskipF] at hskip
          exact Bool.noConfusion hskip
        · exact ih upd log t out h f2 v oS hmem2 hskipF hv hold hne
      · split at h
        · exact Except.noConfusion h
        · rename_i oldSub hold2
          have hsubeq : oS = oldSub := by
            rw [hold] at hold2
            exact Option.some.inj hold2
          subst hsubeq
          split at h
          · rename_i hnone
            rcases List.mem_cons.1 hmem with rfl | hmem2
            · rw [hv] at hnone
              exact Option.noConfusion hnone
            · exact ih upd log t out h f2 v oS hmem2 hskipF hv hold hne
          · rename_i vg hvg
            split at h
            · rename_i heq
              rcases List.mem_cons.1 hmem with rfl | hmem2
              · rw [hv] at hvg
                rw [Option.some.inj hvg] at hne
                exact absurd heq hne
              · exact ih upd log t out h f2 v oS hmem2 hskipF hv hold hne
            · split at h
              · exact Except.noConfusion h
              · rename_i t2 hw2
                rcases List.mem_cons.1 hmem with rfl | hmem2
                · have hveq : vg = v := by
                    rw [hv] at hvg
                    exact (Option.some.inj hvg).symm
                  subst hveq
                  obtain ⟨u', l', t''⟩ := out
                  obtain ⟨ws, hlog, _, _, _⟩ :=
                    stageFields_sound rest (addName upd f2)
                      (log ++ [(f2, vg)]) t2 u' l' t'' h
                  rw [hlog]
                  simp
                · exact ih _ _ t2 out h f2 v oS hmem2 hskipF hv hold hne

theorem stageAll_complete {oldC newC : TypedConfig}
    {onlyF : Option (List String)} :
    ∀ (fs upd : List String) (log : List (String × String)) (t : GPTree)
      (out : List String × List (String × String) × GPTree),
      stageAll oldC newC onlyF fs upd log t = .ok out →
      ∀ f sub f2 v oS, f ∈ fs → newC.get f = some sub → f2 ∈ sub.fieldsSet →
        skipOnly onlyF f2 = false → sub.get f2 = some v →
        oldC.get f = some oS → oS.get f2 ≠ some v →
        (f2, v) ∈ out.2.1 := by
  intro fs
  induction fs with
  | nil =>
      intro upd log t out h f sub f2 v oS hmem
      simp at hmem
  | cons g fsrest ih =>
      intro upd log t out h f sub f2 v oS hmem hsub hmemfs hskipF hv hold hne
      simp only [stageAll] at h
      split at h
      · rename_i hgnone
        rcases List.mem_cons.1 hmem with rfl | hmem2
        · rw [hsub] at hgnone
          exact Option.noConfusion hgnone
        · exact ih upd log t out h f sub f2 v oS hmem2 hsub hmemfs hskipF hv hold hne
      · rename_i subg hgsub
        split at h
        · exact Except.noConfusion h
        · rename_i upd2 log2 t2 hsf
          rcases List.mem_cons.1 hmem with rfl | hmem2
          · have hseq : subg = sub := by
              rw [hsub] at hgsub
              exact (Option.some.inj hgsub).symm
            subst hseq
            have hmemlog2 : (f2, v) ∈ log2 :=
              stageFields_complete subg.fieldsSet upd log t (upd2, log2, t2)
                hsf f2 v oS hmemfs hskipF hv hold hne
            obtain ⟨u', l', t''⟩ := out
            obtain ⟨ws, hlog, _, _, _⟩ :=
              stageAll_sound fsrest upd2 log2 t2 u' l' t'' h
            rw [hlog]
            exact List.mem_append_left _ hmemlog2
          · exact ih upd2 log2 t2 out h f sub f2 v oS hmem2 hsub hmemfs hskipF
              hv hold hne

theorem set_config_core_exact {oldC newC : TypedConfig}
    {onlyF : Option (List String)} {t : GPTree} {out : SetConfigOut}
    (h : set_config_core oldC newC onlyF t = .ok out) :
    (∀ x, x ∈ out.updated ↔ x ∈ out.log.map Prod.fst) ∧
    out.tree = applyLog t out.log ∧
    (∀ w ∈ out.log, ∃ f sub, f ∈ newC.fieldsSet ∧ newC.get f = some sub ∧
      skipOnly onlyF w.1 = false ∧ w.1 ∈ sub.fieldsSet ∧
      sub.get w.1 = some w.2 ∧
      (∃ oS, oldC.get f = some oS ∧ oS.get w.1 ≠ some w.2) ∧
      (treeLookup t w.1).isSome) ∧
    (out.updated = [] → out.log = [] ∧ out.tree = t ∧ out.committed = false) ∧
    out.committed = !out.updated.isEmpty := by
  unfold set_config_core at h
  split at h
  · exact Except.noConfusion h
  · rename_i upd log t2 hsa
    have hout : out = ⟨upd, log, t2, !upd.isEmpty⟩ :=
      (Except.ok.inj h).symm
    subst hout
    obtain ⟨ws, hlog, ht, hupd, hcond⟩ :=
      stageAll_sound newC.fieldsSet [] [] t upd log t2 hsa
    simp only [List.nil_append] at hlog
    subst hlog
    have hiff : ∀ x, x ∈ upd ↔ x ∈ log.map Prod.fst := by
      intro x
      rw [hupd x]
      simp
    refine ⟨hiff, ht, ?_, ?_, rfl⟩
    · intro w hw
      obtain ⟨f, sub, c0, c1, c2, c3, c4, c5, c6⟩ := hcond w hw
      exact ⟨f, sub, c0, c1, c2, c3, c4, c5, c6⟩
    · intro hemp
      have hemp' : upd = [] := hemp
      have hlog0 : log = [] := by
        cases hl : log with
        | nil => rfl
        | cons w ws' =>
            have hm : w.1 ∈ upd := by
              rw [hiff w.1, hl]
              simp
            rw [hemp'] at hm
            simp at hm
      refine ⟨hlog0, ?_, ?_⟩
      · show t2 = t
        rw [ht, hlog0]
        rfl
      · show (!upd.isEmpty) = false
        rw [hemp']
        rfl

theorem set_config_core_complete {oldC newC : TypedConfig}
    {onlyF : Option (List String)} {t : GPTree} {out : SetConfigOut}
    (h : set_config_core oldC newC onlyF t = .ok out) :
    ∀ f sub f2 v oS, f ∈ newC.fieldsSet → newC.get f = some sub →
      f2 ∈ sub.fieldsSet → skipOnly onlyF f2 = false → sub.get f2 = some v →
      oldC.get f = some oS → oS.get f2 ≠ some v → (f2, v) ∈ out.log := by
  unfold set_config_core at h
  split at h
  · exact Except.noConfusion h
  · rename_i upd log t2 hsa
    have hout : out = ⟨upd, log, t2, !upd.isEmpty⟩ :=
      (Except.ok.inj h).symm
    subst hout
    intro f sub f2 v oS hfmem hsub hmemfs hskipF hv hold hne
    exact stageAll_complete newC.fieldsSet [] [] t (upd, log, t2) hsa f sub
      f2 v oS hfmem hsub hmemfs hskipF hv hold hne

/-- C2: Camera.set_config stages a hardware widget write exactly for fields
explicitly set in the desired config (inside an explicitly-set, non-None
sub-config), passing the only_fields filter, whose desired value is non-null
and differs from the decoded live baseline; the returned changed-field set
equals (as a set) the names written to hardware, and when it is empty no
widget write and no hardware commit happens at all. -/
theorem set_config_exact (sc : Schema) (t : GPTree) (newC : TypedConfig)
    (onlyF : Option (List String)) (out : SetConfigOut)
    (h : camera_set_config sc t newC onlyF = .ok out) :
    (∀ x, x ∈ out.updated ↔ x ∈ out.log.map Prod.fst) ∧
    (∀ w ∈ out.log, skipOnly onlyF w.1 = false ∧
      ∃ f sub, f ∈ newC.fieldsSet ∧ newC.get f = some sub ∧
        w.1 ∈ sub.fieldsSet ∧ sub.get w.1 = some w.2 ∧
        ∃ oS, (decode sc t).get f = some oS ∧ oS.get w.1 ≠ some w.2) ∧
    (out.updated = [] → out.log = [] ∧ out.tree = t ∧ out.committed = false) ∧
    out.committed = !out.updated.isEmpty := by
  unfold camera_set_config at h
  obtain ⟨hiff, _, hcond, hemp, hcom⟩ := set_config_core_exact h
  refine ⟨hiff, ?_, hemp, hcom⟩
  intro w hw
  obtain ⟨f, sub, c0, c1, c2, c3, c4, c5, c6⟩ := hcond w hw
  exact ⟨c2, f, sub, c0, c1, c3, c4, c5⟩

/-- Witness for C2: applying cfgB on the live tree tr0 stages exactly the
capturetarget write, returns exactly that field, and commits. -/
theorem set_config_exact_witness :
    camera_set_config sc0 tr0 cfgB none = .ok scOut0 ∧
    (∀ x, x ∈ scOut0.updated ↔ x ∈ scOut0.log.map Prod.fst) ∧
    (scOut0.updated = [] → scOut0.log = [] ∧ scOut0.tree = tr0 ∧
      scOut0.committed = false) ∧
    scOut0.committed = !scOut0.updated.isEmpty := by
  have h : camera_set_config sc0 tr0 cfgB none = .ok scOut0 := rfl
  obtain ⟨h1, _, h3, h4⟩ := set_config_exact sc0 tr0 cfgB none scOut0 h
  exact ⟨h, h1, h3, h4⟩

/-- C3: the config_context round trip on the normal path.  On a well-formed
device tree (globally distinct widget names), with the generated schema
aligned to the tree and a well-typed temporary config B, if entering the
context succeeded with changed-field set out1.updated and the restoring
set_config on exit succeeded (over any tree t2 of the same shape that the
enclosed operation left behind), then every field the context changed reads
back its pre-context value, and the restore writes only fields inside the
changed set — no field outside it is touched by the context itself. -/
theorem config_context_roundtrip (sc : Schema) (t0 t2 : GPTree)
    (B : TypedConfig) (out1 out2 : SetConfigOut)
    (hWF : TreeWF t0) (hAl : Aligned sc t0) (hWT : WellTypedCfg sc B)
    (hShape : treeShape t2 = treeShape t0)
    (hEntry : camera_set_config sc t0 B none = .ok out1)
    (hExit : set_config_core (decode sc t2) (decode sc t0)
        (some out1.updated) t2 = .ok out2) :
    (∀ f2 ∈ out1.updated, treeLookup out2.tree f2 = treeLookup t0 f2) ∧
    (∀ w ∈ out2.log, w.1 ∈ out1.updated) ∧
    (∀ f2, f2 ∉ out1.updated → treeLookup out2.tree f2 = treeLookup t2 f2) ∧
    (∀ f2, f2 ∉ out1.updated → treeLookup out1.tree f2 = treeLookup t0 f2) := by
  unfold camera_set_config at hEntry
  obtain ⟨hiff1, htree1, hcond1, _, _⟩ := set_config_core_exact hEntry
  obtain ⟨hiff2, htree2, hcond2, _, _⟩ := set_config_core_exact hExit
  have hWF2 : TreeWF t2 := (treeWF_of_shape hShape).2 hWF
  have hexitkey : ∀ w ∈ out2.log, w.1 ∈ out1.updated := by
    intro w hw
    obtain ⟨f, sub, _, _, hskip, _, _, _, _⟩ := hcond2 w hw
    exact skipOnly_some_eq_false.1 hskip
  have hexitval : ∀ w ∈ out2.log, treeLookup t0 w.1 = some w.2 := by
    intro w hw
    obtain ⟨f, sub, _, hfget, _, _, hget, _, _⟩ := hcond2 w hw
    obtain ⟨fl, sec, hfl, hsec, hsubeq⟩ := decode_get_some.1 hfget
    subst hsubeq
    obtain ⟨hmemfl, halk⟩ := decodeSub_get_some hget
    have hloc : localValue t0 f w.1 = some w.2 := by
      unfold localValue
      rw [hsec]
      exact halk
    exact treeLookup_of_localValue hWF hloc
  have hok2 : ∀ w ∈ out2.log, (treeLookup t2 w.1).isSome := by
    intro w hw
    obtain ⟨_, _, _, _, _, _, _, _, hsome⟩ := hcond2 w hw
    exact hsome
  refine ⟨?_, hexitkey, ?_, ?_⟩
  · intro f2 hf2mem
    have hlogmem : f2 ∈ out1.log.map Prod.fst := (hiff1 f2).1 hf2mem
    obtain ⟨w1, hw1mem, hw1fst⟩ := List.mem_map.1 hlogmem
    obtain ⟨g, v⟩ := w1
    have hgf : g = f2 := hw1fst
    rw [hgf] at hw1mem
    obtain ⟨f, subB, hfB, hBget, _, hmemfsB, hBval, ⟨oS, hA_get, hA_ne⟩, hlk0⟩ :=
      hcond1 (f2, v) hw1mem
    simp only at hBval hA_ne hlk0
    obtain ⟨fl, sec0, hfl, hsec0, hoSeq⟩ := decode_get_some.1 hA_get
    have hmemfl : f2 ∈ fl := by
      obtain ⟨fl', hfl', hmem'⟩ := hWT f hfB subB hBget f2 hmemfsB
      rw [hfl] at hfl'
      rw [Option.some.inj hfl']
      exact hmem'
    obtain ⟨v0, hv0⟩ := Option.isSome_iff_exists.1 hlk0
    have hpair : (f, fl) ∈ sc.sections := alookup_mem_pair hfl
    have hloc0 : localValue t0 f f2 = treeLookup t0 f2 :=
      hAl (f, fl) hpair f2 hmemfl (by rw [hv0]; rfl)
    have halk0 : alookup sec0.leaves f2 = some v0 := by
      have h1 : localValue t0 f f2 = some v0 := by rw [hloc0, hv0]
      unfold localValue at h1
      rw [hsec0] at h1
      exact h1
    have hoSget : oS.get f2 = some v0 := by
      rw [hoSeq, decodeSub_get_mem hmemfl]
      exact halk0
    by_cases hmem2 : f2 ∈ out2.log.map Prod.fst
    · have hall : ∀ w ∈ out2.log, w.1 = f2 → w.2 = v0 := by
        intro w hw hwf
        have hv' := hexitval w hw
        rw [hwf, hv0] at hv'
        exact (Option.some.inj hv').symm
      have hlast : logLast out2.log f2 = some v0 := logLast_of_all_eq hall hmem2
      rw [htree2, applyLog_lookup_last t2 hok2 hlast, hv0]
    · have hcorr := findSection_shape hShape f
      rw [hsec0] at hcorr
      cases hsec2' : findSection t2 f with
      | none =>
          rw [hsec2'] at hcorr
          exact Option.noConfusion hcorr
      | some sec2 =>
          rw [hsec2'] at hcorr
          have hkeys : sec2.leaves.map Prod.fst = sec0.leaves.map Prod.fst :=
            Option.some.inj hcorr
          have hA2get : (decode sc t2).get f =
              some (decodeSub fl sec2.leaves) :=
            decode_get_some.2 ⟨fl, sec2, hfl, hsec2', rfl⟩
          have hloc2some : (alookup sec2.leaves f2).isSome := by
            rw [alookup_isSome_iff, hkeys, ← alookup_isSome_iff, halk0]
            rfl
          obtain ⟨u, hu⟩ := Option.isSome_iff_exists.1 hloc2some
          have hlocu : localValue t2 f f2 = some u := by
            unfold localValue
            rw [hsec2']
            exact hu
          have hglob : treeLookup t2 f2 = some u :=
            treeLookup_of_localValue hWF2 hlocu
          by_cases huv : u = v0
          · have hpres : treeLookup out2.tree f2 = treeLookup t2 f2 := by
              rw [htree2]
              exact applyLog_lookup_notmem _ _ t2 hmem2
            rw [hpres, hglob, huv, hv0]
          · have hne' : (decodeSub fl sec2.leaves).get f2 ≠ some v0 := by
              rw [decodeSub_get_mem hmemfl, hu]
              intro hc
              exact huv (Option.some.inj hc)
            have hfA : f ∈ (decode sc t0).fieldsSet := by
              rw [decode_fieldsSet]
              refine ⟨List.mem_map_of_mem Prod.fst hpair, ?_⟩
              rw [hsec0]
              rfl
            have hf2fs : f2 ∈ oS.fieldsSet := by
              rw [hoSeq, decodeSub_fieldsSet]
              exact ⟨hmemfl, by rw [halk0]; rfl⟩
            have hmemlog : (f2, v0) ∈ out2.log :=
              set_config_core_complete hExit f oS f2 v0
                (decodeSub fl sec2.leaves) hfA hA_get hf2fs
                (skipOnly_some_eq_false.2 hf2mem) hoSget hA2get hne'
            exact absurd (List.mem_map_of_mem Prod.fst hmemlog) hmem2
  · intro f2 hnmem
    have hnm2 : f2 ∉ out2.log.map Prod.fst := by
      intro hc
      obtain ⟨w, hw, hwf⟩ := List.mem_map.1 hc
      rw [← hwf] at hnmem
      exact hnmem (hexitkey w hw)
    rw [htree2]
    exact applyLog_lookup_notmem _ _ t2 hnm2
  · intro f2 hnmem
    have hnm1 : f2 ∉ out1.log.map Prod.fst := fun hc => hnmem ((hiff1 f2).2 hc)
    rw [htree1]
    exact applyLog_lookup_notmem _ _ t0 hnm1

/-- Witness for C3: the round trip at the concrete session: entry switches
capturetarget to the memory card, the body does nothing, and the restore
brings back Internal RAM, touching only capturetarget. -/
theorem config_context_roundtrip_witness :
    camera_set_config sc0 tr0 cfgB none = .ok scOut0 ∧
    set_config_core (decode sc0 tr1) (decode sc0 tr0)
      (some scOut0.updated) tr1 = .ok scOut1 ∧
    (∀ f2 ∈ scOut0.updated, treeLookup scOut1.tree f2 = treeLookup tr0 f2) ∧
    (∀ f2, f2 ∉ scOut0.updated →
      treeLookup scOut1.tree f2 = treeLookup tr1 f2) := by
  have hEntry : camera_set_config sc0 tr0 cfgB none = .ok scOut0 := rfl
  have hExit : set_config_core (decode sc0 tr1) (decode sc0 tr0)
      (some scOut0.updated) tr1 = .ok scOut1 := rfl
  have hWT : WellTypedCfg sc0 cfgB := by
    intro f hf sub hsub f2 hf2
    have hf' : f = "settings" := by
      simpa [cfgB, mkCfg] using hf
    subst hf'
    have hsub' : sub = mkSub [("capturetarget", "Memory card")] := by
      have hc : cfgB.get "settings" =
          some (mkSub [("capturetarget", "Memory card")]) := rfl
      rw [hc] at hsub
      exact (Option.some.inj hsub).symm
    subst hsub'
    have hf2' : f2 = "capturetarget" := by
      simpa [mkSub] using hf2
    subst hf2'
    exact ⟨["capturetarget"], rfl, by simp⟩
  have h := config_context_roundtrip sc0 tr0 tr1 cfgB scOut0 scOut1
    (by decide) (by decide) hWT (by decide) hEntry hExit
  exact ⟨hEntry, hExit, h.1, h.2.2.1⟩

/-- Witness for C10 at the concrete configuration with settings = None. -/
theorem sdcard_none_attribute_error_witness :
    is_sdcard_capture_enabled none = .error .attributeError ∧
    (camera_capture false none none (.ok ⟨"store", "IMG.jpg"⟩) 10 true
        (is_sdcard_capture_enabled none)).result = .error .attributeError :=
  ⟨(sdcard_none_attribute_error none (Or.inl rfl)).1,
    ((sdcard_none_attribute_error none (Or.inl rfl)).2.1 false none
      ⟨"store", "IMG.jpg"⟩ 10).1⟩

end PyDSLR
